import Mathlib

/-!
# Verification of the ethereum-address-scraper core

Shallow embedding of the Go sources of `ethereum-address-scraper`:
the address extractor, the dedup merger (`core/scrape.go`), the
size-capped fetchers, the URL resolver, the blacklist-filtered scrape
pipeline and the fixed-size random-eviction cache (`cache/cache.go`).

Conventions:
* Go strings are modelled as `String` / `List Char` (the scraper treats
  response bodies as plain text, so bytes are modelled by characters).
* Go maps are modelled as insertion-ordered association lists; Go's map
  iteration order is unspecified, so every statement about the order of
  values collected from a map is made order-insensitively or is a
  property of each produced entry.
* `math/rand.Intn n` is modelled by an arbitrary natural `rnd` reduced
  modulo `n`; `Intn` panics for `n = 0`, modelled by returning `none`.
-/

namespace Scraper

/-- Character-list strings, used internally so that all operations are
plain structural recursion. -/
abbrev Str := List Char

/-- One extracted finding, `AddressInfo` from `core/scrape.go`. -/
structure AddressInfo where
  address : String
  src : String
  type : String
  targets : List String
deriving DecidableEq, Repr

/-! ## Address extraction (`findAddressInfos`) -/

/-- Hexadecimal digit class of the Go regexp `[0-9a-fA-F]`. -/
def isHexDigitGo (c : Char) : Bool :=
  ('0' ≤ c && c ≤ '9') || ('a' ≤ c && c ≤ 'f') || ('A' ≤ c && c ≤ 'F')

/-- Take exactly `n` hex digits from the front of `cs`, returning them
and the remainder. -/
def takeHex : Nat → Str → Option (Str × Str)
  | 0, cs => some ([], cs)
  | _ + 1, [] => none
  | n + 1, c :: cs =>
    if isHexDigitGo c then
      match takeHex n cs with
      | some (d, r) => some (c :: d, r)
      | none => none
    else none

/-- Match the regexp `0x[0-9a-fA-F]{40}` at the start of the input:
returns the 42-character token and the rest on success. -/
def matchAddrAt : Str → Option (Str × Str)
  | '0' :: 'x' :: cs =>
    match takeHex 40 cs with
    | some (d, r) => some ('0' :: 'x' :: d, r)
    | none => none
  | _ => none

/-- Left-to-right, non-overlapping scan for `0x[0-9a-fA-F]{40}`, the
semantics of Go's `regexp.FindAllString` for this pattern.  `fuel`
bounds the recursion; it is instantiated with the input length. -/
def scanAddrs : Nat → Str → List Str
  | 0, _ => []
  | _ + 1, [] => []
  | fuel + 1, c :: cs =>
    match matchAddrAt (c :: cs) with
    | some (tok, rest) => tok :: scanAddrs fuel rest
    | none => scanAddrs fuel cs

/-- `findAddressInfos` from `core/scrape.go`: one `AddressInfo` per
regexp match, tagged with source, kind and originating target. -/
def findAddressInfos (content src contentType target : String) : List AddressInfo :=
  (scanAddrs content.data.length content.data).map fun tok =>
    { address := ⟨tok⟩, src := src, type := contentType, targets := [target] }

/-- Spec-side predicate: the exact token shape `0x` followed by exactly
40 hexadecimal digits. -/
def isEthToken (s : String) : Bool :=
  match s.data with
  | '0' :: 'x' :: rest => rest.length == 40 && rest.all isHexDigitGo
  | _ => false

/-! ## Dedup merger (`uniqueAddressInfos`) -/

/-- The grouping key used by `uniqueAddressInfos`:
`info.Address + info.Src + info.Type` (plain string concatenation). -/
def keyOf (e : AddressInfo) : String :=
  e.address ++ e.src ++ e.type

/-- The inner merge loop of `uniqueAddressInfos`: append each incoming
target that is not already present (Go's `targetMap` membership test). -/
def addTargets (acc : List String) (ts : List String) : List String :=
  ts.foldl (fun a t => if t ∈ a then a else a ++ [t]) acc

/-- Association-list lookup, modelling `seen[key]`. -/
def lookupSeen : List (String × AddressInfo) → String → Option AddressInfo
  | [], _ => none
  | (k, v) :: rest, key => if k = key then some v else lookupSeen rest key

/-- Association-list in-place update, modelling `seen[key] = existing`. -/
def updateSeen : List (String × AddressInfo) → String → AddressInfo → List (String × AddressInfo)
  | [], _, _ => []
  | (k, v) :: rest, key, info =>
    if k = key then (k, info) :: rest else (k, v) :: updateSeen rest key info

/-- One iteration of the `uniqueAddressInfos` loop body. -/
def dedupStep (seen : List (String × AddressInfo)) (info : AddressInfo) :
    List (String × AddressInfo) :=
  let key := keyOf info
  match lookupSeen seen key with
  | some existing =>
    updateSeen seen key { existing with targets := addTargets existing.targets info.targets }
  | none => seen ++ [(key, info)]

/-- The `seen` map after the `uniqueAddressInfos` loop, as an
insertion-ordered association list. -/
def dedupSeen (infos : List AddressInfo) : List (String × AddressInfo) :=
  infos.foldl dedupStep []

/-- `uniqueAddressInfos` from `core/scrape.go`.  Go collects the map's
values in unspecified order; the model uses insertion order. -/
def uniqueAddressInfos (infos : List AddressInfo) : List AddressInfo :=
  (dedupSeen infos).map Prod.snd

/-- The merged entry the code produces for concatenation key `k`:
the first input entry with that key, its `targets` kept verbatim, with
the targets of every later entry with the same key unioned in
first-seen order. -/
def mergedFor (X : List AddressInfo) (k : String) : Option AddressInfo :=
  match X.filter (fun e => keyOf e == k) with
  | [] => none
  | e :: rest => some { e with targets := rest.foldl (fun acc e2 => addTargets acc e2.targets) e.targets }

/-- The union of the `targets` of all entries of `X` sharing the
`(address, src, type)` triple, deduplicated in first-seen order —
the quantity named by the spec's union invariant. -/
def targetsUnionOfTriple (X : List AddressInfo) (a s ty : String) : List String :=
  (X.filter (fun e => e.address == a && e.src == s && e.type == ty)).foldl
    (fun acc e => addTargets acc e.targets) []

/-! ## Fixed-size cache (`cache/cache.go`) -/

/-- Association-list lookup for the cache's `items` map. -/
def lookupItem {α : Type} : List (String × α) → String → Option α
  | [], _ => none
  | (k, v) :: rest, key => if k = key then some v else lookupItem rest key

/-- Association-list write for the cache's `items` map: update in place
when the key is present, append otherwise (Go `items[key] = value`). -/
def setItem {α : Type} : List (String × α) → String → α → List (String × α)
  | [], key, value => [(key, value)]
  | (k, v) :: rest, key, value =>
    if k = key then (k, value) :: rest else (k, v) :: setItem rest key value

/-- Association-list delete for the cache's `items` map
(Go `delete(items, key)`). -/
def delItem {α : Type} (items : List (String × α)) (key : String) : List (String × α) :=
  items.filter (fun p => p.1 ≠ key)

/-- `FixedSizeCache` from `cache/cache.go`.  The `sync.RWMutex` guards
interleaving only and has no sequential behaviour, so it is not
modelled; the `items` map is an association list. -/
structure FixedSizeCache (α : Type) where
  items : List (String × α)
  keys : List String
  maxCacheSize : Nat
deriving DecidableEq, Repr

/-- `NewFixedSizeCache` from `cache/cache.go`. -/
def NewFixedSizeCache (α : Type) (maxCacheSize : Nat) : FixedSizeCache α :=
  { items := [], keys := [], maxCacheSize := maxCacheSize }

/-- `FixedSizeCache.Get`. -/
def FixedSizeCache.Get {α : Type} (c : FixedSizeCache α) (key : String) : Option α :=
  lookupItem c.items key

/-- `FixedSizeCache.Set`.  The random draw `rand.Intn(len(c.keys))` is
modelled by an arbitrary `rnd` reduced modulo the number of keys;
`rand.Intn` panics when its argument is `0`, modelled by `none`. -/
def FixedSizeCache.Set {α : Type} (c : FixedSizeCache α) (key : String) (value : α)
    (rnd : Nat) : Option (FixedSizeCache α) :=
  if (lookupItem c.items key).isSome then
    some { c with items := setItem c.items key value }
  else if c.maxCacheSize ≤ c.keys.length then
    if h : c.keys.length = 0 then none
    else
      let evictIndex := rnd % c.keys.length
      let evictKey := c.keys.get ⟨evictIndex, Nat.mod_lt _ (Nat.pos_of_ne_zero h)⟩
      let lastKey := c.keys.get ⟨c.keys.length - 1, by omega⟩
      let keys' := (c.keys.set evictIndex lastKey).dropLast
      some { c with items := setItem (delItem c.items evictKey) key value,
                    keys := keys' ++ [key] }
  else
    some { c with items := setItem c.items key value, keys := c.keys ++ [key] }

/-- A sequence of `Set` calls, aborting (like the Go panic) as soon as
one call aborts. -/
def runSetOps {α : Type} (c : FixedSizeCache α) :
    List (String × α × Nat) → Option (FixedSizeCache α)
  | [] => some c
  | (k, v, r) :: rest =>
    match c.Set k v r with
    | some c' => runSetOps c' rest
    | none => none

/-! ## Size-capped fetchers (`fetchScriptContent` / `fetchHTMLContent`) -/

/-- `maxContentSize` from `core/scrape.go`: 20 MiB. -/
def maxContentSize : Nat := 20 * 1024 * 1024

/-- The body-reading logic shared by `fetchScriptContent` and
`fetchHTMLContent`: `io.ReadAll(io.LimitReader(resp.Body, maxContentSize))`
reads at most `maxContentSize` bytes of the response stream, and the
fetch fails when that many were read.  Bytes are modelled by `Char`. -/
def readLimitedBody (stream : Str) : Except String String :=
  let body := stream.take maxContentSize
  if maxContentSize ≤ body.length then
    Except.error "content exceeds maximum size of 20MB"
  else
    Except.ok ⟨body⟩

/-- `fetchScriptContent` from `core/scrape.go`, over an oracle transport
result: either a transport error or the raw response stream. -/
def fetchScriptContent (resp : Except String Str) : Except String String :=
  match resp with
  | Except.error e => Except.error e
  | Except.ok stream => readLimitedBody stream

/-- `fetchHTMLContent` from `core/scrape.go`; its body-handling is
identical to `fetchScriptContent`. -/
def fetchHTMLContent (resp : Except String Str) : Except String String :=
  match resp with
  | Except.error e => Except.error e
  | Except.ok stream => readLimitedBody stream

/-! ## URL model (`net/url` as used by `resolveURL`)

`resolveURL` in `core/scrape.go` delegates to Go's `net/url`
(`Parse`, `ResolveReference`, `String`, `Hostname`), an external
library.  The model below reproduces its behaviour for the URL
fragment the scraper handles: no percent-escapes and no userinfo
(`user@host` authorities are rejected instead of parsed). -/

/-- Lower-casing, used for URL schemes. -/
def toLowerStr (s : Str) : Str := s.map Char.toLower

/-- Whether a character occurs in the string. -/
def strContains (s : Str) (c : Char) : Bool := s.any (fun x => x = c)

/-- Split at the first occurrence of `sep` (Go `strings.Cut`),
returning `none` when `sep` does not occur. -/
def cutChar : Str → Char → Option (Str × Str)
  | [], _ => none
  | c :: cs, sep =>
    if c = sep then some ([], cs)
    else
      match cutChar cs sep with
      | some (a, b) => some (c :: a, b)
      | none => none

/-- Split on every occurrence of `sep` (Go `strings.Split`). -/
def splitOnChar : Str → Char → List Str
  | [], _ => [[]]
  | c :: cs, sep =>
    if c = sep then [] :: splitOnChar cs sep
    else
      match splitOnChar cs sep with
      | [] => [[c]]
      | s :: rest => (c :: s) :: rest

/-- Index of the last occurrence of a character. -/
def lastIndexOfChar : Str → Char → Option Nat
  | [], _ => none
  | c :: cs, ch =>
    match lastIndexOfChar cs ch with
    | some i => some (i + 1)
    | none => if c = ch then some 0 else none

/-- The input up to the first `/` (exclusive). -/
def firstSegment (s : Str) : Str :=
  match cutChar s '/' with
  | some (a, _) => a
  | none => s

/-- The Go `url.URL` record, without the unmodelled `User` field. -/
structure GoURL where
  scheme : Str
  opq : Str
  host : Str
  path : Str
  forceQuery : Bool
  rawQuery : Str
  fragment : Str
  omitHost : Bool
deriving DecidableEq, Repr

def isAlphaGo (c : Char) : Bool :=
  ('a' ≤ c && c ≤ 'z') || ('A' ≤ c && c ≤ 'Z')

def isDigitGo (c : Char) : Bool := '0' ≤ c && c ≤ '9'

/-- The scan loop of Go `getScheme`: `orig` is the whole input, returned
untouched when no scheme is found. -/
def schemeScan : Str → Str → Str → Option (Str × Str)
  | [], _, orig => some ([], orig)
  | c :: cs, acc, orig =>
    if c = ':' then some (acc.reverse, cs)
    else if isAlphaGo c || isDigitGo c || c = '+' || c = '-' || c = '.' then
      schemeScan cs (c :: acc) orig
    else some ([], orig)

/-- Go `getScheme`: split `scheme:rest`; `none` models the
"missing protocol scheme" error for a leading `:`. -/
def schemeSplit (s : Str) : Option (Str × Str) :=
  match s with
  | [] => some ([], [])
  | c :: cs =>
    if c = ':' then none
    else if isAlphaGo c then schemeScan cs [c] s
    else some ([], s)

/-- Go `url.parse` query handling: a single trailing `?` sets
`ForceQuery`, otherwise the string is cut at the first `?`. -/
def queryCut (rest0 : Str) : Str × Bool × Str :=
  if rest0 ≠ [] ∧ rest0.getLast? = some '?' ∧ ¬ strContains rest0.dropLast '?' then
    (rest0.dropLast, true, [])
  else
    match cutChar rest0 '?' with
    | some (a, b) => (a, false, b)
    | none => (rest0, false, [])

/-- Split an authority from the path that follows it. -/
def splitAuthority (s : Str) : Str × Str :=
  match cutChar s '/' with
  | some (a, b) => (a, '/' :: b)
  | none => (s, [])

/-- Go `url.parse` (with `viaRequest = false`), for inputs without a
fragment.  `none` models a parse error. -/
def parseNoFrag (s : Str) : Option GoURL :=
  match schemeSplit s with
  | none => none
  | some (schemeRaw, rest0) =>
    let scheme := toLowerStr schemeRaw
    let qc := queryCut rest0
    let rest := qc.1
    let forceQuery := qc.2.1
    let rawQuery := qc.2.2
    if ¬ (['/'].isPrefixOf rest) ∧ scheme ≠ [] then
      some { scheme := scheme, opq := rest, host := [], path := [],
             forceQuery := forceQuery, rawQuery := rawQuery, fragment := [],
             omitHost := false }
    else if ¬ (['/'].isPrefixOf rest) ∧ strContains (firstSegment rest) ':' then
      none
    else if (scheme ≠ [] ∨ ¬ (['/', '/', '/'].isPrefixOf rest)) ∧
        (['/', '/'].isPrefixOf rest) then
      let ar := splitAuthority (rest.drop 2)
      if strContains ar.1 '@' then none
      else
        some { scheme := scheme, opq := [], host := ar.1, path := ar.2,
               forceQuery := forceQuery, rawQuery := rawQuery, fragment := [],
               omitHost := false }
    else
      some { scheme := scheme, opq := [], host := [], path := rest,
             forceQuery := forceQuery, rawQuery := rawQuery, fragment := [],
             omitHost := scheme ≠ [] ∧ ['/'].isPrefixOf rest }

/-- Go `url.Parse`: the fragment is cut off first. -/
def parseURL (s : String) : Option GoURL :=
  match cutChar s.data '#' with
  | some (u, frag) =>
    match parseNoFrag u with
    | some url => some { url with fragment := frag }
    | none => none
  | none => parseNoFrag s.data

/-- Go `validOptionalPort` for the suffix starting at the last colon. -/
def validOptionalPort (p : Str) : Bool :=
  match p with
  | [] => true
  | ':' :: digits => digits.all isDigitGo
  | _ => false

/-- Go `splitHostPort` host part plus IPv6-bracket stripping: the
behaviour of `url.Hostname()`. -/
def stripPortBrackets (host : Str) : Str :=
  let h1 :=
    match lastIndexOfChar host ':' with
    | some i => if validOptionalPort (host.drop i) then host.take i else host
    | none => host
  if ['['].isPrefixOf h1 ∧ h1.getLast? = some ']' then (h1.drop 1).dropLast else h1

/-- `url.Hostname()`. -/
def hostnameOf (u : GoURL) : String := ⟨stripPortBrackets u.host⟩

/-- `remove_dot_segments` over the segments of a rooted path, as Go's
`resolvePath` cleanup loop performs it: a stack of kept segments (in
reverse) plus a flag recording whether the last segment was `.` or
`..` (those leave a trailing slash). -/
def remDotSegs : List Str → List Str → Bool → List Str × Bool
  | [], stk, trail => (stk, trail)
  | seg :: rest, stk, _ =>
    if seg = ['.'] then remDotSegs rest stk true
    else if seg = ['.', '.'] then remDotSegs rest (stk.drop 1) true
    else remDotSegs rest (seg :: stk) false

/-- Cleanup of a path that begins with `/`. -/
def cleanPathAbs (full : Str) : Str :=
  let segs := splitOnChar (full.drop 1) '/'
  let r := remDotSegs segs [] false
  let out := r.1.reverse
  '/' :: (List.intercalate ['/'] out ++ if r.2 ∧ out ≠ [] then ['/'] else [])

/-- The prefix of `s` up to and including its last `/`. -/
def takeToLastSlash (s : Str) : Str :=
  match lastIndexOfChar s '/' with
  | some i => s.take (i + 1)
  | none => []

/-- Go `resolvePath`: merge the reference path with the base path, then
remove dot segments.  Every call reachable from `resolveURL` passes a
`full` string that is empty or begins with `/`. -/
def resolvePathGo (base ref : Str) : Str :=
  let full :=
    if ref = [] then base
    else if ref.head? ≠ some '/' then takeToLastSlash base ++ ref
    else ref
  if full = [] then []
  else if full.head? = some '/' then cleanPathAbs full
  else cleanPathAbs ('/' :: full)

/-- Go `URL.ResolveReference` (without the unmodelled `User` field). -/
def resolveReference (u ref : GoURL) : GoURL :=
  let r0 := { ref with scheme := if ref.scheme = [] then u.scheme else ref.scheme }
  if ref.scheme ≠ [] ∨ ref.host ≠ [] then
    { r0 with path := resolvePathGo ref.path [] }
  else if ref.opq ≠ [] then
    { r0 with host := [], path := [] }
  else if ref.path = [] ∧ ¬ ref.forceQuery ∧ ref.rawQuery = [] then
    { r0 with rawQuery := u.rawQuery,
              fragment := if ref.fragment = [] then u.fragment else ref.fragment,
              host := u.host, path := resolvePathGo u.path ref.path }
  else
    { r0 with host := u.host, path := resolvePathGo u.path ref.path }

/-- Go `URL.String` (no userinfo, no escaping). -/
def urlString (u : GoURL) : String :=
  let b0 : Str := if u.scheme ≠ [] then u.scheme ++ [':'] else []
  let core :=
    if u.opq ≠ [] then b0 ++ u.opq
    else
      let authPart : Str :=
        if u.scheme ≠ [] ∨ u.host ≠ [] then
          if u.omitHost ∧ u.host = [] then []
          else (if u.host ≠ [] ∨ u.path ≠ [] then ['/', '/'] else []) ++ u.host
        else []
      let b1 := b0 ++ authPart
      let b2 := b1 ++ (if u.path ≠ [] ∧ u.path.head? ≠ some '/' ∧ u.host ≠ [] then ['/'] else [])
      b2 ++ (if b2 = [] ∧ strContains (firstSegment u.path) ':' then ['.', '/'] else []) ++ u.path
  let withQ := core ++ (if u.forceQuery ∨ u.rawQuery ≠ [] then '?' :: u.rawQuery else [])
  ⟨withQ ++ (if u.fragment ≠ [] then '#' :: u.fragment else [])⟩

/-- `resolveURL` from `core/scrape.go`: parse both URLs, prepend `/` to
a relative, non-empty reference path that does not already start with
`/`, then resolve. -/
def resolveURL (base ref : String) : Except String String :=
  match parseURL base with
  | none => Except.error ("failed to parse URL " ++ base)
  | some baseURL =>
    match parseURL ref with
    | none => Except.error ("failed to parse URL " ++ ref)
    | some refURL =>
      let refURL' :=
        if refURL.scheme = [] ∧ refURL.path ≠ [] ∧ refURL.path.head? ≠ some '/' then
          { refURL with path := '/' :: refURL.path }
        else refURL
      Except.ok (urlString (resolveReference baseURL refURL'))

/-! ## Scrape pipeline (`core/scrape.go`)

The network, the HTML parser and the public-suffix resolver are the
external collaborators of the core; they are modelled as oracle
functions in `Env`.  The two process-global caches are threaded
explicitly as `CoreState`.  `processScripts` fans the per-script work
out concurrently in Go and collects completions from a channel in
arbitrary order; the model processes scripts sequentially in list
order, one of the possible interleavings (all claims settled against
it are insensitive to that order). -/

/-- `blacklistHostnames` from `core/scrape.go`. -/
def blacklistHostnames : List String :=
  ["google.com", "localhost:5173",
   "ethereum-address-scraper-api-n3j67ioglq-as.a.run.app"]

/-- `contains` from `core/scrape.go`. -/
def containsStr (slice : List String) (item : String) : Bool :=
  slice.any (fun s => s = item)

/-- External collaborators: raw transport streams for page and script
GETs, the HTML `<script src>` extractor, the public-suffix registrable
domain, and the source of the cache-eviction random draws. -/
structure Env where
  htmlResp : String → Except String Str
  scriptResp : String → Except String Str
  extractScripts : String → List String
  psDomain : String → Except String String
  evictRnd : Nat

/-- The two process-global caches of `core/scrape.go`. -/
structure CoreState where
  targetCache : FixedSizeCache (List AddressInfo)
  scriptCache : FixedSizeCache String

/-- `maxCacheSize` from `core/scrape.go`. -/
def coreMaxCacheSize : Nat := 1000

/-- The initial process state: two fresh caches of capacity 1000. -/
def initialCoreState : CoreState :=
  { targetCache := NewFixedSizeCache (List AddressInfo) coreMaxCacheSize,
    scriptCache := NewFixedSizeCache String coreMaxCacheSize }

/-- Total `Set`: the caches are constructed with capacity 1000 ≥ 1, for
which `Set` never reaches the aborting `rand.Intn(0)` draw, so the
`getD` fallback is never exercised on reachable states. -/
def setTotal {α : Type} (c : FixedSizeCache α) (key : String) (value : α) (rnd : Nat) :
    FixedSizeCache α :=
  (c.Set key value rnd).getD c

/-- `getTopLevelDomain` from `core/scrape.go`: defer to the
public-suffix oracle. -/
def getTopLevelDomain (env : Env) (hostname : String) : Except String String :=
  env.psDomain hostname

/-- `getTLD` from `core/scrape.go`: parse the target, reject
blacklisted hostnames, then resolve the registrable domain. -/
def getTLD (env : Env) (target : String) : Except String String :=
  match parseURL target with
  | none => Except.error ("failed to parse target URL " ++ target)
  | some u =>
    let h := hostnameOf u
    if containsStr blacklistHostnames h then
      Except.error ("target hostname " ++ h ++ " is blacklisted")
    else getTopLevelDomain env h

/-- `getScriptContent` from `core/scrape.go`: script-cache check, fetch
on miss, cache the fetched body. -/
def getScriptContent (env : Env) (st : CoreState) (fullURL : String) :
    Except String String × CoreState :=
  match st.scriptCache.Get fullURL with
  | some cached => (Except.ok cached, st)
  | none =>
    match fetchScriptContent (env.scriptResp fullURL) with
    | Except.error e =>
      (Except.error ("failed to fetch script content from " ++ fullURL ++ ": " ++ e), st)
    | Except.ok body =>
      (Except.ok body,
       { st with scriptCache := setTotal st.scriptCache fullURL body env.evictRnd })

/-- `processScript` from `core/scrape.go`: resolve the script URL, skip
silently on a blacklisted hostname or a registrable-domain mismatch,
otherwise fetch and extract. -/
def processScript (env : Env) (st : CoreState) (target script targetTLD : String) :
    Except String (List AddressInfo) × CoreState :=
  match resolveURL target script with
  | Except.error _ => (Except.error ("failed to resolve script URL " ++ script), st)
  | Except.ok fullURL =>
    match parseURL fullURL with
    | none => (Except.error ("failed to parse script URL " ++ fullURL), st)
    | some su =>
      let scriptHostname := hostnameOf su
      if containsStr blacklistHostnames scriptHostname then (Except.ok [], st)
      else
        match getTopLevelDomain env scriptHostname with
        | Except.error _ => (Except.error ("failed to get TLD for script " ++ fullURL), st)
        | Except.ok scriptTLD =>
          if scriptTLD ≠ targetTLD then (Except.ok [], st)
          else
            match getScriptContent env st fullURL with
            | (Except.error e, st') => (Except.error e, st')
            | (Except.ok content, st') =>
              (Except.ok (findAddressInfos content fullURL "script" target), st')

/-- The fan-out/fan-in loop of `processScripts`, sequentialized: a
failed script is logged and dropped, never failing the target. -/
def processScriptList (env : Env) (st : CoreState) (target targetTLD : String) :
    List String → List AddressInfo × CoreState
  | [] => ([], st)
  | s :: ss =>
    match processScript env st target s targetTLD with
    | (Except.error _, st1) => processScriptList env st1 target targetTLD ss
    | (Except.ok infos, st1) =>
      let r := processScriptList env st1 target targetTLD ss
      (infos ++ r.1, r.2)

/-- `processScripts` from `core/scrape.go`: the target's registrable
domain is resolved first; a blacklisted or unresolvable target hostname
fails the whole target before any script is touched. -/
def processScriptsGo (env : Env) (st : CoreState) (target : String) (scripts : List String) :
    Except String (List AddressInfo) × CoreState :=
  match getTLD env target with
  | Except.error e => (Except.error e, st)
  | Except.ok targetTLD =>
    let r := processScriptList env st target targetTLD scripts
    (Except.ok r.1, r.2)

/-- `scrapeTarget` from `core/scrape.go`. -/
def scrapeTarget (env : Env) (st : CoreState) (target : String) :
    Except String (List AddressInfo) × CoreState :=
  match st.targetCache.Get target with
  | some cached => (Except.ok cached, st)
  | none =>
    match fetchHTMLContent (env.htmlResp target) with
    | Except.error e => (Except.error ("failed to fetch data from " ++ target ++ ": " ++ e), st)
    | Except.ok content =>
      let addressInfos := findAddressInfos content target "html" target
      let scripts := env.extractScripts content
      match processScriptsGo env st target scripts with
      | (Except.error e, st') => (Except.error e, st')
      | (Except.ok scriptInfos, st') =>
        let all := addressInfos ++ scriptInfos
        (Except.ok all,
         { st' with targetCache := setTotal st'.targetCache target all env.evictRnd })

/-- The per-target loop of `Scrape`: a failed target is logged and
skipped, its findings omitted from the aggregate. -/
def scrapeAll (env : Env) (st : CoreState) : List String → List AddressInfo × CoreState
  | [] => ([], st)
  | t :: ts =>
    match scrapeTarget env st t with
    | (Except.error _, st1) => scrapeAll env st1 ts
    | (Except.ok infos, st1) =>
      let r := scrapeAll env st1 ts
      (infos ++ r.1, r.2)

/-- `Scrape` from `core/scrape.go`: aggregate all targets, dedup once,
and always return a nil error. -/
def Scrape (env : Env) (st : CoreState) (targets : List String) :
    Except String (List AddressInfo) × CoreState :=
  let r := scrapeAll env st targets
  (Except.ok (uniqueAddressInfos r.1), r.2)

/-! ## Lemmas about the dedup merger -/

/-- Merging one more entry into an already-merged optional entry. -/
def mergeInto : Option AddressInfo → AddressInfo → AddressInfo
  | none, e => e
  | some m, e => { m with targets := addTargets m.targets e.targets }

/-- Merge a whole key-group: first entry's targets verbatim, later
entries unioned in first-seen order. -/
def mergeList : List AddressInfo → Option AddressInfo
  | [] => none
  | e :: rest =>
    some { e with targets := rest.foldl (fun acc e2 => addTargets acc e2.targets) e.targets }

theorem mergeList_append_singleton (l : List AddressInfo) (e : AddressInfo) :
    mergeList (l ++ [e]) = some (mergeInto (mergeList l) e) := by
  cases l with
  | nil =>
    show mergeList [e] = some e
    simp [mergeList]
  | cons f rest =>
    simp [mergeList, mergeInto, List.foldl_append]

theorem mergedFor_eq_mergeList (X : List AddressInfo) (k : String) :
    mergedFor X k = mergeList (X.filter (fun e => keyOf e == k)) := by
  unfold mergedFor mergeList
  rfl

theorem lookupSeen_append_singleton (s : List (String × AddressInfo)) (k0 k : String)
    (v : AddressInfo) :
    lookupSeen (s ++ [(k0, v)]) k =
      match lookupSeen s k with
      | some w => some w
      | none => if k0 = k then some v else none := by
  induction s with
  | nil => simp [lookupSeen]
  | cons p rest ih =>
    obtain ⟨kp, vp⟩ := p
    by_cases h : kp = k
    · simp [lookupSeen, h]
    · simp [lookupSeen, h, ih]

theorem lookupSeen_eq_none_iff (s : List (String × AddressInfo)) (k : String) :
    lookupSeen s k = none ↔ k ∉ s.map Prod.fst := by
  induction s with
  | nil => simp [lookupSeen]
  | cons p rest ih =>
    obtain ⟨kp, vp⟩ := p
    by_cases h : kp = k
    · simp [lookupSeen, h]
    · simp only [lookupSeen, if_neg h, List.map_cons, List.mem_cons, ih]
      constructor
      · intro hn hc
        rcases hc with hc | hc
        · exact h hc.symm
        · exact hn hc
      · intro hn hc
        exact hn (Or.inr hc)

theorem lookupSeen_mem (s : List (String × AddressInfo)) (k : String) (v : AddressInfo)
    (h : lookupSeen s k = some v) : (k, v) ∈ s := by
  induction s with
  | nil => simp [lookupSeen] at h
  | cons p rest ih =>
    obtain ⟨kp, vp⟩ := p
    by_cases hk : kp = k
    · simp [lookupSeen, hk] at h
      subst hk h
      exact List.mem_cons_self _ _
    · simp [lookupSeen, hk] at h
      exact List.mem_cons_of_mem _ (ih h)

theorem lookupSeen_of_mem_nodup (s : List (String × AddressInfo)) (k : String)
    (v : AddressInfo) (hnd : (s.map Prod.fst).Nodup) (h : (k, v) ∈ s) :
    lookupSeen s k = some v := by
  induction s with
  | nil => simp at h
  | cons p rest ih =>
    obtain ⟨kp, vp⟩ := p
    rw [List.map_cons, List.nodup_cons] at hnd
    rcases List.mem_cons.mp h with h1 | h1
    · obtain ⟨h2, h3⟩ := Prod.ext_iff.mp h1
      simp only at h2 h3
      simp [lookupSeen, h2.symm, h3.symm]
    · have hkne : kp ≠ k := by
        intro he
        subst he
        exact hnd.1 (by simpa using List.mem_map_of_mem Prod.fst h1)
      simp [lookupSeen, hkne]
      exact ih hnd.2 h1

theorem updateSeen_map_fst (s : List (String × AddressInfo)) (k : String) (v : AddressInfo) :
    (updateSeen s k v).map Prod.fst = s.map Prod.fst := by
  induction s with
  | nil => rfl
  | cons p rest ih =>
    obtain ⟨kp, vp⟩ := p
    by_cases h : kp = k
    · simp [updateSeen, h]
    · simp [updateSeen, h, ih]

theorem updateSeen_mem (s : List (String × AddressInfo)) (k : String) (v : AddressInfo)
    (p : String × AddressInfo) (h : p ∈ updateSeen s k v) : p ∈ s ∨ p = (k, v) := by
  induction s with
  | nil => simp [updateSeen] at h
  | cons q rest ih =>
    obtain ⟨kq, vq⟩ := q
    by_cases hk : kq = k
    · simp [updateSeen, hk] at h
      rcases h with h | h
      · right; simpa [hk] using h
      · left; exact List.mem_cons_of_mem _ h
    · simp [updateSeen, hk] at h
      rcases h with h | h
      · left; simp [h]
      · rcases ih h with h1 | h1
        · left; exact List.mem_cons_of_mem _ h1
        · right; exact h1

theorem lookupSeen_updateSeen_self (s : List (String × AddressInfo)) (k : String)
    (v w : AddressInfo) (h : lookupSeen s k = some w) :
    lookupSeen (updateSeen s k v) k = some v := by
  induction s with
  | nil => simp [lookupSeen] at h
  | cons p rest ih =>
    obtain ⟨kp, vp⟩ := p
    by_cases hk : kp = k
    · simp [updateSeen, hk, lookupSeen]
    · simp [lookupSeen, hk] at h
      simp [updateSeen, hk, lookupSeen, ih h]

theorem lookupSeen_updateSeen_ne (s : List (String × AddressInfo)) (k k' : String)
    (v : AddressInfo) (h : k' ≠ k) :
    lookupSeen (updateSeen s k v) k' = lookupSeen s k' := by
  induction s with
  | nil => rfl
  | cons p rest ih =>
    obtain ⟨kp, vp⟩ := p
    by_cases hk : kp = k
    · subst hk
      have : kp ≠ k' := fun he => h he.symm
      simp [updateSeen, lookupSeen, this]
    · simp [updateSeen, hk, lookupSeen, ih]

theorem keyOf_mergeInto (m : Option AddressInfo) (e : AddressInfo) (k : String)
    (hm : ∀ w, m = some w → keyOf w = k) (he : m = none → keyOf e = k) :
    keyOf (mergeInto m e) = k := by
  cases m with
  | none => exact he rfl
  | some w =>
    show keyOf { w with targets := addTargets w.targets e.targets } = k
    have : keyOf { w with targets := addTargets w.targets e.targets } = keyOf w := rfl
    rw [this]
    exact hm w rfl

/-- The central invariant of the `uniqueAddressInfos` loop: the `seen`
map has pairwise-distinct keys, each stored entry carries its own key,
and the entry stored at key `k` is exactly the merge of all processed
entries whose key is `k`. -/
theorem dedupSeen_invariant (X : List AddressInfo) :
    ((dedupSeen X).map Prod.fst).Nodup
    ∧ (∀ p ∈ dedupSeen X, keyOf p.2 = p.1)
    ∧ (∀ k, lookupSeen (dedupSeen X) k = mergedFor X k) := by
  induction X using List.reverseRecOn with
  | nil =>
    refine ⟨by simp [dedupSeen], by simp [dedupSeen], ?_⟩
    intro k
    simp [dedupSeen, lookupSeen, mergedFor_eq_mergeList, mergeList]
  | append_singleton X e ih =>
    obtain ⟨hnd, hkeys, hlk⟩ := ih
    have hstep : dedupSeen (X ++ [e]) = dedupStep (dedupSeen X) e := by
      simp [dedupSeen, List.foldl_append]
    have hfilter : ∀ k, (X ++ [e]).filter (fun x => keyOf x == k) =
        X.filter (fun x => keyOf x == k) ++ (if keyOf e == k then [e] else []) := by
      intro k
      rw [List.filter_append]
      simp [List.filter_singleton]
    cases hcase : lookupSeen (dedupSeen X) (keyOf e) with
    | none =>
      have hs' : dedupSeen (X ++ [e]) = dedupSeen X ++ [(keyOf e, e)] := by
        rw [hstep]
        simp only [dedupStep, hcase]
      have hfresh : keyOf e ∉ (dedupSeen X).map Prod.fst :=
        (lookupSeen_eq_none_iff _ _).mp hcase
      have hemp : X.filter (fun x => keyOf x == keyOf e) = [] := by
        have h0 := hlk (keyOf e)
        rw [hcase, mergedFor_eq_mergeList] at h0
        cases hflt : X.filter (fun x => keyOf x == keyOf e) with
        | nil => rfl
        | cons a l =>
          rw [hflt] at h0
          simp [mergeList] at h0
      refine ⟨?_, ?_, ?_⟩
      · rw [hs', List.map_append, List.map_singleton]
        rw [List.nodup_append]
        exact ⟨hnd, List.nodup_singleton _, by simpa using hfresh⟩
      · intro p hp
        rw [hs'] at hp
        rcases List.mem_append.mp hp with hp | hp
        · exact hkeys p hp
        · simp at hp
          subst hp
          rfl
      · intro k
        by_cases hk : keyOf e = k
        · subst hk
          rw [hs', lookupSeen_append_singleton, hcase,
              mergedFor_eq_mergeList, hfilter, hemp]
          simp [mergeList]
        · rw [hs', lookupSeen_append_singleton, hlk k]
          have hright : mergedFor (X ++ [e]) k = mergedFor X k := by
            rw [mergedFor_eq_mergeList, mergedFor_eq_mergeList, hfilter,
                if_neg (by simpa using hk), List.append_nil]
          rw [hright]
          cases hm : mergedFor X k with
          | none => simp [if_neg hk]
          | some w => simp
    | some ex =>
      have hs' : dedupSeen (X ++ [e]) =
          updateSeen (dedupSeen X) (keyOf e)
            { ex with targets := addTargets ex.targets e.targets } := by
        rw [hstep]
        simp only [dedupStep, hcase]
      have hkex : keyOf ex = keyOf e := hkeys (keyOf e, ex) (lookupSeen_mem _ _ _ hcase)
      refine ⟨?_, ?_, ?_⟩
      · rw [hs', updateSeen_map_fst]
        exact hnd
      · intro p hp
        rw [hs'] at hp
        rcases updateSeen_mem _ _ _ _ hp with hp | hp
        · exact hkeys p hp
        · subst hp
          exact hkex
      · intro k
        by_cases hk : keyOf e = k
        · subst hk
          rw [hs', lookupSeen_updateSeen_self _ _ _ ex hcase,
              mergedFor_eq_mergeList, hfilter, if_pos (by simp),
              mergeList_append_singleton]
          have hx := hlk (keyOf e)
          rw [hcase, mergedFor_eq_mergeList] at hx
          rw [← hx]
          rfl
        · rw [hs', lookupSeen_updateSeen_ne _ _ _ _ (fun he => hk he.symm), hlk k]
          rw [mergedFor_eq_mergeList, mergedFor_eq_mergeList, hfilter,
              if_neg (by simpa using hk), List.append_nil]

/-- Processing entries with pairwise-distinct, unseen keys just appends
them to the `seen` map unchanged. -/
theorem foldl_dedupStep_fresh :
    ∀ (X : List AddressInfo) (s : List (String × AddressInfo)),
      (X.map keyOf).Nodup →
      (∀ e ∈ X, lookupSeen s (keyOf e) = none) →
      X.foldl dedupStep s = s ++ X.map (fun e => (keyOf e, e)) := by
  intro X
  induction X with
  | nil => intro s _ _; simp
  | cons e rest ih =>
    intro s hnd hfresh
    rw [List.map_cons, List.nodup_cons] at hnd
    have hstep : dedupStep s e = s ++ [(keyOf e, e)] := by
      simp only [dedupStep, hfresh e (List.mem_cons_self _ _)]
    have hfresh' : ∀ e' ∈ rest, lookupSeen (s ++ [(keyOf e, e)]) (keyOf e') = none := by
      intro e' he'
      rw [lookupSeen_append_singleton, hfresh e' (List.mem_cons_of_mem _ he')]
      have : keyOf e ≠ keyOf e' := by
        intro hc
        exact hnd.1 (hc ▸ List.mem_map_of_mem keyOf he')
      simp [this]
    rw [List.foldl_cons, hstep, ih _ hnd.2 hfresh', List.append_assoc]
    rfl

/-- Deduplicating a list whose keys are already pairwise distinct is
the identity. -/
theorem dedup_of_nodup_keys (X : List AddressInfo) (hnd : (X.map keyOf).Nodup) :
    uniqueAddressInfos X = X := by
  unfold uniqueAddressInfos dedupSeen
  rw [foldl_dedupStep_fresh X [] hnd (fun e _ => rfl), List.nil_append, List.map_map]
  have h : ∀ e ∈ X, (Prod.snd ∘ fun e => (keyOf e, e)) e = id e := fun e _ => rfl
  rw [List.map_congr_left h, List.map_id]

/-- The output keys of the dedup merger are pairwise distinct. -/
theorem dedup_keys_nodup (X : List AddressInfo) :
    ((uniqueAddressInfos X).map keyOf).Nodup := by
  obtain ⟨hnd, hkeys, _⟩ := dedupSeen_invariant X
  have hmap : (uniqueAddressInfos X).map keyOf = (dedupSeen X).map Prod.fst := by
    unfold uniqueAddressInfos
    rw [List.map_map]
    exact List.map_congr_left (fun p hp => hkeys p hp)
  rw [hmap]
  exact hnd

/-! ## Claim theorems: dedup merger -/

/-- **C6.** The dedup merger is idempotent: deduplicating an
already-deduplicated finding list returns it unchanged (in the model
literally, hence in particular as a set of entries, which is all Go's
unspecified map order guarantees). -/
theorem dedup_idempotent (X : List AddressInfo) :
    uniqueAddressInfos (uniqueAddressInfos X) = uniqueAddressInfos X :=
  dedup_of_nodup_keys _ (dedup_keys_nodup X)

/-- **C9.** The merger groups by the string concatenation
`address ++ src ++ type`: two entries with different `(address, src,
type)` triples but identical concatenations are merged into a single
entry that carries the first entry's triple and the union of both
`targets` lists, dropping the second triple. -/
theorem dedup_key_collision :
    uniqueAddressInfos
        [{ address := "0xAB", src := "ab", type := "cd", targets := ["t1"] },
         { address := "0xAB", src := "a", type := "bcd", targets := ["t2"] }]
      = [{ address := "0xAB", src := "ab", type := "cd", targets := ["t1", "t2"] }]
    ∧ keyOf { address := "0xAB", src := "ab", type := "cd", targets := ["t1"] }
        = keyOf { address := "0xAB", src := "a", type := "bcd", targets := ["t2"] }
    ∧ ¬ (("ab" : String) = "a" ∧ ("cd" : String) = "bcd") := by
  refine ⟨?_, ?_, ?_⟩
  · rfl
  · rfl
  · decide

/-- **C1, counterexample.** The claim as stated is false: with two
entries whose triples differ but whose concatenated keys coincide, the
merged entry's `targets` is not the union of the targets of the
entries sharing its `(address, src, type)` triple. -/
theorem dedup_union_by_triple_cex :
    ¬ ((List.Pairwise
          (fun a b => ¬ (a.address = b.address ∧ a.src = b.src ∧ a.type = b.type))
          (uniqueAddressInfos
            [{ address := "0xCD", src := "xy", type := "zw", targets := ["u1"] },
             { address := "0xCD", src := "x", type := "yzw", targets := ["u2"] }]))
        ∧ ∀ e ∈ uniqueAddressInfos
            [{ address := "0xCD", src := "xy", type := "zw", targets := ["u1"] },
             { address := "0xCD", src := "x", type := "yzw", targets := ["u2"] }],
            e.targets = targetsUnionOfTriple
              [{ address := "0xCD", src := "xy", type := "zw", targets := ["u1"] },
               { address := "0xCD", src := "x", type := "yzw", targets := ["u2"] }]
              e.address e.src e.type) := by
  decide

/-- **C1, amended.** Grouping is by the concatenated key
`address ++ src ++ type`: no two output entries share a key (hence in
particular no two share the `(address, src, type)` triple), and every
output entry is the merge of all input entries with its key — the
first such entry, its `targets` kept verbatim, with the targets of
every later same-key entry unioned in in first-seen order. -/
theorem dedup_union_by_key (X : List AddressInfo) :
    List.Pairwise
        (fun a b => ¬ (a.address = b.address ∧ a.src = b.src ∧ a.type = b.type))
        (uniqueAddressInfos X)
    ∧ ∀ e ∈ uniqueAddressInfos X, mergedFor X (keyOf e) = some e := by
  obtain ⟨hnd, hkeys, hlk⟩ := dedupSeen_invariant X
  constructor
  · have hpw : List.Pairwise (fun a b => keyOf a ≠ keyOf b) (uniqueAddressInfos X) :=
      List.pairwise_map.mp (dedup_keys_nodup X)
    refine hpw.imp ?_
    intro a b hab hc
    exact hab (by rw [keyOf, keyOf, hc.1, hc.2.1, hc.2.2])
  · intro e he
    obtain ⟨p, hp, hpe⟩ := List.mem_map.mp he
    have hk : p.1 = keyOf e := by rw [← hpe]; exact (hkeys p hp).symm
    have hl : lookupSeen (dedupSeen X) p.1 = some p.2 :=
      lookupSeen_of_mem_nodup _ _ _ hnd (by simpa using hp)
    rw [← hlk (keyOf e), ← hk, hl, hpe]

/-- Witness for the amended C1 theorem at a concrete input. -/
theorem dedup_union_by_key_witness :
    mergedFor [{ address := "0xEF", src := "s", type := "html", targets := ["t"] }]
        (keyOf { address := "0xEF", src := "s", type := "html", targets := ["t"] })
      = some { address := "0xEF", src := "s", type := "html", targets := ["t"] } :=
  (dedup_union_by_key
      [{ address := "0xEF", src := "s", type := "html", targets := ["t"] }]).2
    { address := "0xEF", src := "s", type := "html", targets := ["t"] } (by decide)

/-! ## Claim theorems: size-capped fetch -/

/-- **C2.** The fetchers read the response body only up to the 20 MiB
cap: a fetch succeeds exactly when the stream is strictly shorter than
the cap, in which case the whole body is returned; a stream of at
least 20 MiB yields the `ContentTooLarge` error rather than a
truncated body; and `fetchHTMLContent` handles the body identically. -/
theorem fetch_content_cap (stream : Str) :
    (∀ b : String, fetchScriptContent (Except.ok stream) = Except.ok b ↔
        (b = ⟨stream⟩ ∧ stream.length < maxContentSize))
    ∧ (fetchScriptContent (Except.ok stream)
          = Except.error "content exceeds maximum size of 20MB"
        ↔ maxContentSize ≤ stream.length)
    ∧ fetchHTMLContent (Except.ok stream) = fetchScriptContent (Except.ok stream) := by
  have hlen : (stream.take maxContentSize).length = min maxContentSize stream.length :=
    List.length_take _ _
  by_cases h : maxContentSize ≤ stream.length
  · have hcap : maxContentSize ≤ (stream.take maxContentSize).length := by
      rw [hlen]
      exact Nat.le_min.mpr ⟨Nat.le_refl _, h⟩
    refine ⟨?_, ?_, rfl⟩
    · intro b
      simp only [fetchScriptContent, readLimitedBody, if_pos hcap]
      constructor
      · intro hc
        cases hc
      · intro hc
        omega
    · simp only [fetchScriptContent, readLimitedBody, if_pos hcap]
      simp [h]
  · have hlt : stream.length < maxContentSize := Nat.lt_of_not_le h
    have hall : stream.take maxContentSize = stream :=
      List.take_of_length_le (Nat.le_of_lt hlt)
    have hcap : ¬ maxContentSize ≤ (stream.take maxContentSize).length := by
      rw [hall]
      exact h
    refine ⟨?_, ?_, rfl⟩
    · intro b
      simp only [fetchScriptContent, readLimitedBody, hall]
      rw [if_neg h]
      constructor
      · intro hc
        cases hc
        exact ⟨rfl, hlt⟩
      · intro hc
        rw [hc.1]
    · simp only [fetchScriptContent, readLimitedBody, hall]
      rw [if_neg h]
      simp [h]

/-! ## Lemmas about the fixed-size cache -/

theorem list_set_getElem_self : ∀ (l : List String) (i : Nat) (h : i < l.length),
    l.set i (l.get ⟨i, h⟩) = l := by
  intro l
  induction l with
  | nil => intro i h; simp at h
  | cons c tl ih =>
    intro i h
    cases i with
    | zero => rfl
    | succ j =>
      have hj : j < tl.length := by simpa using h
      show c :: tl.set j (tl.get ⟨j, hj⟩) = c :: tl
      rw [ih j hj]

theorem list_set_perm_cons_eraseIdx : ∀ (l : List String) (i : Nat) (a : String),
    i < l.length → (l.set i a).Perm (a :: l.eraseIdx i) := by
  intro l
  induction l with
  | nil => intro i a h; simp at h
  | cons c tl ih =>
    intro i a h
    cases i with
    | zero => simp
    | succ j =>
      have hj : j < tl.length := by simpa using h
      show (c :: tl.set j a).Perm (a :: c :: tl.eraseIdx j)
      exact ((ih j a hj).cons c).trans (List.Perm.swap a c _)

theorem list_dropLast_eq_eraseIdx_last (l : List String) :
    l.dropLast = l.eraseIdx (l.length - 1) := by
  induction l with
  | nil => rfl
  | cons c tl ih =>
    cases tl with
    | nil => rfl
    | cons d tl' =>
      show (c :: (d :: tl').dropLast) = (c :: (d :: tl').eraseIdx ((d :: tl').length - 1))
      rw [ih]

theorem list_nodup_eraseIdx_eq_erase : ∀ (l : List String) (i : Nat) (h : i < l.length),
    l.Nodup → l.eraseIdx i = l.erase (l.get ⟨i, h⟩) := by
  intro l
  induction l with
  | nil => intro i h; simp at h
  | cons c tl ih =>
    intro i h hnd
    rw [List.nodup_cons] at hnd
    cases i with
    | zero => simp
    | succ j =>
      have hj : j < tl.length := by simpa using h
      have hmem : tl.get ⟨j, hj⟩ ∈ tl := by
        simp [List.getElem_mem]
      have hne : c ≠ tl.get ⟨j, hj⟩ := fun he => hnd.1 (he ▸ hmem)
      show c :: tl.eraseIdx j = (c :: tl).erase (tl.get ⟨j, hj⟩)
      rw [List.erase_cons_tail (by simpa using hne), ih j hj hnd.2]

/-- The swap-remove step of `FixedSizeCache.Set` (`keys[i] = keys[last];
keys = keys[:len-1]`) is, up to permutation, removal of index `i`. -/
theorem swapRemove_perm (l : List String) (i : Nat) (h : i < l.length) :
    ((l.set i (l.get ⟨l.length - 1, by omega⟩)).dropLast).Perm (l.eraseIdx i) := by
  have hne : l ≠ [] := by
    intro he
    rw [he] at h
    simp at h
  by_cases hlast : i = l.length - 1
  · subst hlast
    rw [list_set_getElem_self, list_dropLast_eq_eraseIdx_last]
  · have hi : i < l.length - 1 := by omega
    have hD : l.dropLast ++ [l.getLast hne] = l := List.dropLast_append_getLast hne
    have hz : l.get ⟨l.length - 1, by omega⟩ = l.getLast hne := by
      rw [List.getLast_eq_getElem]
      rfl
    have hiD : i < l.dropLast.length := by
      rw [List.length_dropLast]
      omega
    have haux : (((l.dropLast ++ [l.getLast hne]).set i (l.getLast hne)).dropLast).Perm
        ((l.dropLast ++ [l.getLast hne]).eraseIdx i) := by
      rw [List.set_append, if_pos hiD, List.dropLast_concat,
          List.eraseIdx_append_of_lt_length hiD]
      exact (list_set_perm_cons_eraseIdx _ i _ hiD).trans
        (List.perm_append_singleton _ _).symm
    rw [hD] at haux
    rw [hz]
    exact haux

theorem lookupItem_eq_none_iff {α : Type} (items : List (String × α)) (k : String) :
    lookupItem items k = none ↔ k ∉ items.map Prod.fst := by
  induction items with
  | nil => simp [lookupItem]
  | cons p rest ih =>
    obtain ⟨kp, vp⟩ := p
    by_cases h : kp = k
    · simp [lookupItem, h]
    · simp only [lookupItem, if_neg h, List.map_cons, List.mem_cons, ih]
      constructor
      · intro hn hc
        rcases hc with hc | hc
        · exact h hc.symm
        · exact hn hc
      · intro hn hc
        exact hn (Or.inr hc)

theorem setItem_map_fst_of_mem {α : Type} (items : List (String × α)) (k : String) (v : α)
    (h : k ∈ items.map Prod.fst) :
    (setItem items k v).map Prod.fst = items.map Prod.fst := by
  induction items with
  | nil => simp at h
  | cons p rest ih =>
    obtain ⟨kp, vp⟩ := p
    by_cases hk : kp = k
    · simp [setItem, hk]
    · rw [List.map_cons, List.mem_cons] at h
      have h' : k ∈ rest.map Prod.fst := by
        rcases h with h | h
        · exact absurd h.symm hk
        · exact h
      simp [setItem, hk, ih h']

theorem setItem_map_fst_of_not_mem {α : Type} (items : List (String × α)) (k : String) (v : α)
    (h : k ∉ items.map Prod.fst) :
    (setItem items k v).map Prod.fst = items.map Prod.fst ++ [k] := by
  induction items with
  | nil => rfl
  | cons p rest ih =>
    obtain ⟨kp, vp⟩ := p
    rw [List.map_cons, List.mem_cons] at h
    push_neg at h
    have hk : kp ≠ k := fun he => h.1 he.symm
    simp [setItem, hk, ih h.2]

theorem delItem_map_fst {α : Type} (items : List (String × α)) (k : String) :
    (delItem items k).map Prod.fst = (items.map Prod.fst).filter (fun x => x ≠ k) := by
  induction items with
  | nil => rfl
  | cons p rest ih =>
    obtain ⟨kp, vp⟩ := p
    by_cases hk : kp = k
    · simp [delItem, List.filter, hk] at ih ⊢
      exact ih
    · simp [delItem, List.filter, hk] at ih ⊢
      exact ih

/-- Well-formedness of a cache state: the tracked `keys` list has no
duplicates and is, up to permutation, exactly the key set of the
`items` map. -/
def CacheWF {α : Type} (c : FixedSizeCache α) : Prop :=
  c.keys.Nodup ∧ (c.items.map Prod.fst).Perm c.keys

theorem CacheWF_new (α : Type) (n : Nat) : CacheWF (NewFixedSizeCache α n) :=
  ⟨List.nodup_nil, List.Perm.refl _⟩

/-- Filtering out one key equals `erase` on a duplicate-free list. -/
theorem filter_ne_eq_erase (l : List String) (hnd : l.Nodup) (a : String) :
    l.filter (fun x => x ≠ a) = l.erase a := by
  rw [List.Nodup.erase_eq_filter hnd]
  apply List.filter_congr
  intro x _
  by_cases hx : x = a
  · simp [hx]
  · simp [hx]

/-- `Set` preserves well-formedness, never grows the key count beyond
the capacity once below it, and leaves the capacity field unchanged. -/
theorem Set_preserves {α : Type} (c : FixedSizeCache α) (key : String) (v : α) (rnd : Nat)
    (c' : FixedSizeCache α) (hwf : CacheWF c) (h : c.Set key v rnd = some c') :
    CacheWF c' ∧ c'.maxCacheSize = c.maxCacheSize
    ∧ (c.keys.length ≤ c.maxCacheSize → c'.keys.length ≤ c.maxCacheSize) := by
  obtain ⟨hnd, hperm⟩ := hwf
  unfold FixedSizeCache.Set at h
  by_cases hpres : (lookupItem c.items key).isSome
  · rw [if_pos hpres] at h
    cases h
    have hmem : key ∈ c.items.map Prod.fst := by
      by_contra hc
      rw [← lookupItem_eq_none_iff] at hc
      rw [hc] at hpres
      simp at hpres
    exact ⟨⟨hnd, by rw [setItem_map_fst_of_mem _ _ _ hmem]; exact hperm⟩, rfl, fun hh => hh⟩
  · rw [if_neg hpres] at h
    have hnone : lookupItem c.items key = none := by
      rcases ho : lookupItem c.items key with _ | w
      · rfl
      · rw [ho] at hpres
        simp at hpres
    have hnotmem : key ∉ c.items.map Prod.fst := (lookupItem_eq_none_iff _ _).mp hnone
    have hnotkeys : key ∉ c.keys := fun hk => hnotmem (hperm.mem_iff.mpr hk)
    by_cases hcap : c.maxCacheSize ≤ c.keys.length
    · rw [if_pos hcap] at h
      by_cases hzero : c.keys.length = 0
      · rw [dif_pos hzero] at h
        cases h
      · rw [dif_neg hzero] at h
        simp only at h
        cases h
        have hilt : rnd % c.keys.length < c.keys.length :=
          Nat.mod_lt _ (Nat.pos_of_ne_zero hzero)
        have hswap := swapRemove_perm c.keys (rnd % c.keys.length) hilt
        have herase : c.keys.eraseIdx (rnd % c.keys.length)
            = c.keys.erase (c.keys.get ⟨rnd % c.keys.length, hilt⟩) :=
          list_nodup_eraseIdx_eq_erase c.keys (rnd % c.keys.length) hilt hnd
        have hsub : (c.keys.eraseIdx (rnd % c.keys.length)).Sublist c.keys :=
          List.eraseIdx_sublist c.keys (rnd % c.keys.length)
        have hswnd : ((c.keys.set (rnd % c.keys.length)
            (c.keys.get ⟨c.keys.length - 1, by omega⟩)).dropLast).Nodup :=
          hswap.nodup_iff.mpr (hsub.nodup hnd)
        have hkeynot : key ∉ (c.keys.set (rnd % c.keys.length)
            (c.keys.get ⟨c.keys.length - 1, by omega⟩)).dropLast := by
          intro hk
          exact hnotkeys (hsub.subset (hswap.subset hk))
        have hdelmem : key ∉ (delItem c.items
            (c.keys.get ⟨rnd % c.keys.length, hilt⟩)).map Prod.fst := by
          intro hk
          rw [delItem_map_fst] at hk
          exact hnotmem (List.mem_of_mem_filter hk)
        refine ⟨⟨?_, ?_⟩, rfl, ?_⟩
        · rw [List.nodup_append]
          refine ⟨hswnd, List.nodup_singleton _, ?_⟩
          intro a ha hb
          rw [List.mem_singleton] at hb
          subst hb
          exact hkeynot ha
        · show ((setItem (delItem c.items _) key v).map Prod.fst).Perm _
          rw [setItem_map_fst_of_not_mem _ _ _ hdelmem, delItem_map_fst]
          refine List.Perm.append_right [key] ?_
          have h1 : ((c.items.map Prod.fst).filter (fun x => x ≠
              c.keys.get ⟨rnd % c.keys.length, hilt⟩)).Perm
              (c.keys.filter (fun x => x ≠ c.keys.get ⟨rnd % c.keys.length, hilt⟩)) :=
            hperm.filter _
          rw [filter_ne_eq_erase c.keys hnd] at h1
          rw [← herase] at h1
          exact h1.trans hswap.symm
        · intro hh
          have hpos := Nat.pos_of_ne_zero hzero
          rw [List.length_append, List.length_dropLast, List.length_set]
          simp only [List.length_singleton]
          omega
    · rw [if_neg hcap] at h
      cases h
      have hlt : c.keys.length < c.maxCacheSize := Nat.lt_of_not_le hcap
      refine ⟨⟨?_, ?_⟩, rfl, ?_⟩
      · rw [List.nodup_append]
        refine ⟨hnd, List.nodup_singleton _, ?_⟩
        intro a ha hb
        rw [List.mem_singleton] at hb
        subst hb
        exact hnotkeys ha
      · show ((setItem c.items key v).map Prod.fst).Perm _
        rw [setItem_map_fst_of_not_mem _ _ _ hnotmem]
        exact List.Perm.append_right [key] hperm
      · intro _
        rw [List.length_append]
        simp
        omega

/-- States reachable from a fresh cache by successful `Set` calls are
well-formed, keep their capacity, and never hold more keys than it. -/
theorem runSetOps_invariant {α : Type} :
    ∀ (ops : List (String × α × Nat)) (c c' : FixedSizeCache α),
      runSetOps c ops = some c' →
      CacheWF c → c.keys.length ≤ c.maxCacheSize →
      CacheWF c' ∧ c'.maxCacheSize = c.maxCacheSize ∧ c'.keys.length ≤ c.maxCacheSize := by
  intro ops
  induction ops with
  | nil =>
    intro c c' h hwf hlen
    cases h
    exact ⟨hwf, rfl, hlen⟩
  | cons op rest ih =>
    intro c c' h hwf hlen
    obtain ⟨k, v, r⟩ := op
    unfold runSetOps at h
    cases hset : c.Set k v r with
    | none => rw [hset] at h; cases h
    | some c1 =>
      rw [hset] at h
      obtain ⟨hwf1, hmax1, hlen1⟩ := Set_preserves c k v r c1 hwf hset
      obtain ⟨hwf', hmax', hlen'⟩ := ih c1 c' h hwf1 (hmax1 ▸ hlen1 hlen)
      exact ⟨hwf', by rw [hmax', hmax1], by rw [hmax1] at hlen'; exact hlen'⟩

/-- **C5.** Capacity invariant of `FixedSizeCache`: after any sequence
of successful `Set` calls on a cache built with capacity `N`, at most
`N` entries are stored; and a `Set` of an absent key performed with
exactly `N` entries stored evicts exactly one existing entry (some
prior key) and then inserts the new key, leaving exactly `N` entries
stored. -/
theorem fixedSizeCache_capacity (α : Type) (N : Nat) (ops : List (String × α × Nat))
    (c : FixedSizeCache α) (h : runSetOps (NewFixedSizeCache α N) ops = some c) :
    c.items.length ≤ N
    ∧ (∀ (key : String) (v : α) (rnd : Nat) (c' : FixedSizeCache α),
        c.items.length = N → lookupItem c.items key = none →
        c.Set key v rnd = some c' →
        c'.items.length = N
          ∧ ∃ ek, ek ∈ c.keys ∧ c'.keys.Perm (key :: c.keys.erase ek)) := by
  obtain ⟨hwf, hmax, hlen⟩ :=
    runSetOps_invariant ops (NewFixedSizeCache α N) c h (CacheWF_new α N)
      (by simp [NewFixedSizeCache])
  obtain ⟨hnd, hperm⟩ := hwf
  have hcount : c.items.length = c.keys.length := by
    have := hperm.length_eq
    simpa using this
  constructor
  · rw [hcount]
    simpa [NewFixedSizeCache] using hlen
  · intro key v rnd c' hfull hnone hset
    have hN : c.maxCacheSize = N := by simpa [NewFixedSizeCache] using hmax
    have hkeysN : c.keys.length = N := by rw [← hcount, hfull]
    have hnotmem : key ∉ c.items.map Prod.fst := (lookupItem_eq_none_iff _ _).mp hnone
    have hpres : ¬ (lookupItem c.items key).isSome = true := by
      rw [hnone]
      simp
    unfold FixedSizeCache.Set at hset
    rw [if_neg hpres, if_pos (by omega)] at hset
    by_cases hzero : c.keys.length = 0
    · rw [dif_pos hzero] at hset
      cases hset
    · rw [dif_neg hzero] at hset
      simp only at hset
      cases hset
      have hilt : rnd % c.keys.length < c.keys.length :=
        Nat.mod_lt _ (Nat.pos_of_ne_zero hzero)
      have hswap := swapRemove_perm c.keys (rnd % c.keys.length) hilt
      have herase : c.keys.eraseIdx (rnd % c.keys.length)
          = c.keys.erase (c.keys.get ⟨rnd % c.keys.length, hilt⟩) :=
        list_nodup_eraseIdx_eq_erase c.keys (rnd % c.keys.length) hilt hnd
      constructor
      · obtain ⟨hwf', _, _⟩ := Set_preserves c key v rnd _ ⟨hnd, hperm⟩ (by
          unfold FixedSizeCache.Set
          rw [if_neg hpres, if_pos (by omega), dif_neg hzero])
        have hc' := hwf'.2.length_eq
        rw [List.length_map] at hc'
        rw [hc', List.length_append, List.length_dropLast, List.length_set]
        simp only [List.length_singleton]
        have hpos := Nat.pos_of_ne_zero hzero
        omega
      · refine ⟨c.keys.get ⟨rnd % c.keys.length, hilt⟩, by simp [List.getElem_mem], ?_⟩
        refine (List.perm_append_singleton _ _).trans ?_
        refine List.Perm.cons key ?_
        rw [← herase]
        exact hswap

/-- Witness for the C5 theorem: one successful `Set` on a fresh
capacity-1 cache, then a `Set` of a second key at capacity. -/
theorem fixedSizeCache_capacity_witness :
    ({ items := [("a", "v")], keys := ["a"], maxCacheSize := 1 } :
        FixedSizeCache String).items.length ≤ 1
    ∧ (({ items := [("b", "w")], keys := ["b"], maxCacheSize := 1 } :
          FixedSizeCache String).items.length = 1
        ∧ ∃ ek, ek ∈ ({ items := [("a", "v")], keys := ["a"], maxCacheSize := 1 } :
            FixedSizeCache String).keys
          ∧ ({ items := [("b", "w")], keys := ["b"], maxCacheSize := 1 } :
              FixedSizeCache String).keys.Perm
              ("b" :: ({ items := [("a", "v")], keys := ["a"], maxCacheSize := 1 } :
                FixedSizeCache String).keys.erase ek)) := by
  have h := fixedSizeCache_capacity String 1 [("a", "v", 0)]
    { items := [("a", "v")], keys := ["a"], maxCacheSize := 1 } (by decide)
  exact ⟨h.1, h.2 "b" "w" 0
    { items := [("b", "w")], keys := ["b"], maxCacheSize := 1 }
    (by decide) (by decide) (by decide)⟩

/-- **C10.** `Set` is total on every cache of capacity at least 1, but
on a capacity-0 cache the first `Set` of any key reaches the eviction
branch with no keys and aborts (`rand.Intn` on a zero-sized range)
instead of storing or rejecting the entry. -/
theorem fixedSizeCache_set_totality :
    (∀ (α : Type) (c : FixedSizeCache α) (k : String) (v : α) (rnd : Nat),
        1 ≤ c.maxCacheSize → (c.Set k v rnd).isSome = true)
    ∧ (∀ (α : Type) (k : String) (v : α) (rnd : Nat),
        (NewFixedSizeCache α 0).Set k v rnd = none) := by
  constructor
  · intro α c k v rnd h1
    unfold FixedSizeCache.Set
    by_cases hpres : (lookupItem c.items k).isSome
    · rw [if_pos hpres]
      rfl
    · rw [if_neg hpres]
      by_cases hcap : c.maxCacheSize ≤ c.keys.length
      · rw [if_pos hcap]
        have hzero : ¬ c.keys.length = 0 := by omega
        rw [dif_neg hzero]
        rfl
      · rw [if_neg hcap]
        rfl
  · intro α k v rnd
    rfl

/-- Witness for the C10 theorem at a concrete capacity-1 cache. -/
theorem fixedSizeCache_set_totality_witness :
    ((NewFixedSizeCache String 1).Set "a" "x" 5).isSome = true :=
  fixedSizeCache_set_totality.1 String (NewFixedSizeCache String 1) "a" "x" 5
    (by decide)

/-! ## Lemmas about the address scanner -/

theorem takeHex_sound : ∀ (n : Nat) (cs d r : Str), takeHex n cs = some (d, r) →
    d.length = n ∧ d.all isHexDigitGo = true ∧ d ++ r = cs := by
  intro n
  induction n with
  | zero =>
    intro cs d r h
    cases cs with
    | nil =>
      cases h
      exact ⟨rfl, rfl, rfl⟩
    | cons c cs' =>
      cases h
      exact ⟨rfl, rfl, rfl⟩
  | succ m ih =>
    intro cs d r h
    cases cs with
    | nil => cases h
    | cons c cs' =>
      unfold takeHex at h
      by_cases hc : isHexDigitGo c
      · rw [if_pos hc] at h
        cases hrec : takeHex m cs' with
        | none => rw [hrec] at h; cases h
        | some pr =>
          obtain ⟨d', r'⟩ := pr
          rw [hrec] at h
          cases h
          obtain ⟨h1, h2, h3⟩ := ih _ _ _ hrec
          refine ⟨by simp [h1], ?_, by simp [h3]⟩
          simp [List.all_cons, hc, h2]
      · rw [if_neg hc] at h
        cases h

theorem matchAddrAt_sound : ∀ (cs tok rest : Str), matchAddrAt cs = some (tok, rest) →
    isEthToken ⟨tok⟩ = true ∧ tok ++ rest = cs := by
  intro cs tok rest h
  unfold matchAddrAt at h
  split at h
  · rename_i cs'
    cases hx : takeHex 40 cs' with
    | none => rw [hx] at h; cases h
    | some pr =>
      obtain ⟨d, r⟩ := pr
      rw [hx] at h
      cases h
      obtain ⟨h1, h2, h3⟩ := takeHex_sound _ _ _ _ hx
      constructor
      · show isEthToken ⟨'0' :: 'x' :: d⟩ = true
        unfold isEthToken
        simp [h1, h2]
      · simp [h3]
  · cases h

theorem scanAddrs_sound : ∀ (fuel : Nat) (cs tok : Str), tok ∈ scanAddrs fuel cs →
    isEthToken ⟨tok⟩ = true ∧ ∃ p q, p ++ (tok ++ q) = cs := by
  intro fuel
  induction fuel with
  | zero => intro cs tok h; cases h
  | succ m ih =>
    intro cs tok h
    cases cs with
    | nil => cases h
    | cons c cs' =>
      unfold scanAddrs at h
      cases hm : matchAddrAt (c :: cs') with
      | some pr =>
        obtain ⟨t, rest⟩ := pr
        rw [hm] at h
        rcases List.mem_cons.mp h with h1 | h1
        · subst h1
          obtain ⟨he, hsplit⟩ := matchAddrAt_sound _ _ _ hm
          exact ⟨he, [], rest, hsplit⟩
        · obtain ⟨he, p, q, hpq⟩ := ih rest tok h1
          obtain ⟨_, hsplit⟩ := matchAddrAt_sound _ _ _ hm
          exact ⟨he, t ++ p, q, by rw [← hsplit, ← hpq]; simp⟩
      | none =>
        rw [hm] at h
        obtain ⟨he, p, q, hpq⟩ := ih cs' tok h
        exact ⟨he, c :: p, q, by rw [← hpq]; rfl⟩

/-! ## Claim theorems: address extraction -/

/-- **C4.** `findAddressInfos` returns one `AddressInfo` per
left-to-right, non-overlapping match of `0x` + 40 hex digits, each
tagged `targets = [originTarget]` with the given source and kind; the
spec's example input yields exactly one entry with the literal
address, and an input with no such token yields `[]`, not an error. -/
theorem findAddressInfos_spec :
    (∀ (content src ty tgt : String), ∀ info ∈ findAddressInfos content src ty tgt,
        info.src = src ∧ info.type = ty ∧ info.targets = [tgt]
          ∧ isEthToken info.address = true)
    ∧ (∀ src ty tgt : String,
        findAddressInfos "address: 0x1234567890abcdef1234567890abcdef12345678" src ty tgt
          = [{ address := "0x1234567890abcdef1234567890abcdef12345678",
               src := src, type := ty, targets := [tgt] }])
    ∧ (∀ src ty tgt : String,
        findAddressInfos "address: 0x12345 no full token" src ty tgt = []) := by
  refine ⟨?_, ?_, ?_⟩
  · intro content src ty tgt info hinfo
    unfold findAddressInfos at hinfo
    obtain ⟨tok, htok, hback⟩ := List.mem_map.mp hinfo
    obtain ⟨he, _⟩ := scanAddrs_sound _ _ _ htok
    subst hback
    exact ⟨rfl, rfl, rfl, he⟩
  · intro src ty tgt
    unfold findAddressInfos
    have hscan : scanAddrs
        ("address: 0x1234567890abcdef1234567890abcdef12345678".data.length)
        ("address: 0x1234567890abcdef1234567890abcdef12345678".data)
        = ["0x1234567890abcdef1234567890abcdef12345678".data] := by decide
    rw [hscan]
    rfl
  · intro src ty tgt
    unfold findAddressInfos
    have hscan : scanAddrs ("address: 0x12345 no full token".data.length)
        ("address: 0x12345 no full token".data) = [] := by decide
    rw [hscan]
    rfl

/-- Witness for the C4 theorem at a concrete extraction. -/
theorem findAddressInfos_spec_witness :
    ({ address := "0x1234567890abcdef1234567890abcdef12345678", src := "s", type := "html",
        targets := ["t"] } : AddressInfo).src = "s"
    ∧ ({ address := "0x1234567890abcdef1234567890abcdef12345678", src := "s", type := "html",
          targets := ["t"] } : AddressInfo).type = "html"
    ∧ ({ address := "0x1234567890abcdef1234567890abcdef12345678", src := "s", type := "html",
          targets := ["t"] } : AddressInfo).targets = ["t"]
    ∧ isEthToken ({ address := "0x1234567890abcdef1234567890abcdef12345678", src := "s",
                    type := "html", targets := ["t"] } : AddressInfo).address = true :=
  findAddressInfos_spec.1 "0x1234567890abcdef1234567890abcdef12345678" "s" "html" "t"
    { address := "0x1234567890abcdef1234567890abcdef12345678", src := "s", type := "html",
      targets := ["t"] }
    (by decide)

/-- **C8, counterexample.** Extraction does not normalize letter case:
the same address written in lower case and in upper case in one
content yields two `AddressInfo` entries whose address fields are
equal up to case but not equal. -/
theorem findAddressInfos_case_cex :
    ¬ (∀ i ∈ findAddressInfos
          "0xaaaaaaaaaaaaaaaaaaaaaaaaaaaaaaaaaaaaaaaa 0xAAAAAAAAAAAAAAAAAAAAAAAAAAAAAAAAAAAAAAAA"
          "s" "html" "t",
        ∀ j ∈ findAddressInfos
          "0xaaaaaaaaaaaaaaaaaaaaaaaaaaaaaaaaaaaaaaaa 0xAAAAAAAAAAAAAAAAAAAAAAAAAAAAAAAAAAAAAAAA"
          "s" "html" "t",
          toLowerStr i.address.data = toLowerStr j.address.data →
            i.address = j.address) := by
  decide

/-- **C8, amended.** Every address produced by extraction matches the
fixed-length pattern `0x` + 40 hex digits (case-insensitively), but
its letter case is the verbatim case of its occurrence in the content
(the address is a contiguous substring of the content); no case
normalization is applied. -/
theorem findAddressInfos_address_pattern_verbatim :
    ∀ (content src ty tgt : String), ∀ info ∈ findAddressInfos content src ty tgt,
      isEthToken info.address = true
      ∧ ∃ p q, p ++ (info.address.data ++ q) = content.data := by
  intro content src ty tgt info hinfo
  unfold findAddressInfos at hinfo
  obtain ⟨tok, htok, hback⟩ := List.mem_map.mp hinfo
  obtain ⟨he, p, q, hpq⟩ := scanAddrs_sound _ _ _ htok
  subst hback
  exact ⟨he, p, q, hpq⟩

/-- Witness for the amended C8 theorem at a concrete extraction. -/
theorem findAddressInfos_address_pattern_verbatim_witness :
    isEthToken ({ address := "0xAbCdEfAbCdEfAbCdEfAbCdEfAbCdEfAbCdEfAb12", src := "u",
                  type := "script", targets := ["t2"] } : AddressInfo).address = true
    ∧ ∃ p q, p ++ (({ address := "0xAbCdEfAbCdEfAbCdEfAbCdEfAbCdEfAbCdEfAb12", src := "u",
                      type := "script", targets := ["t2"] } : AddressInfo).address.data ++ q)
        = ("see 0xAbCdEfAbCdEfAbCdEfAbCdEfAbCdEfAbCdEfAb12" : String).data :=
  findAddressInfos_address_pattern_verbatim
    "see 0xAbCdEfAbCdEfAbCdEfAbCdEfAbCdEfAbCdEfAb12" "u" "script" "t2"
    { address := "0xAbCdEfAbCdEfAbCdEfAbCdEfAbCdEfAbCdEfAb12", src := "u",
      type := "script", targets := ["t2"] }
    (by decide)

/-! ## Lemmas about the URL resolver -/

theorem resolvePathGo_of_slash (b p : Str) :
    resolvePathGo b ('/' :: p) = cleanPathAbs ('/' :: p) := by
  unfold resolvePathGo
  simp

theorem resolveURL_eq_of_parse (base ref : String) (u r : GoURL)
    (hb : parseURL base = some u) (hr : parseURL ref = some r) :
    resolveURL base ref = Except.ok (urlString (resolveReference u
      (if r.scheme = [] ∧ r.path ≠ [] ∧ r.path.head? ≠ some '/' then
        { r with path := '/' :: r.path } else r))) := by
  unfold resolveURL
  rw [hb, hr]

/-- **C3.** `resolveURL` treats every relative, non-empty reference
whose path does not begin with `/` as site-root-relative: the result
does not depend on the base URL's path (only on its scheme and host).
The four literal resolution scenarios of the spec hold. -/
theorem resolveURL_root_relative :
    (∀ (b1 b2 ref : String) (u1 u2 r : GoURL),
        parseURL b1 = some u1 → parseURL b2 = some u2 →
        u1.scheme = u2.scheme → u1.host = u2.host →
        parseURL ref = some r → r.scheme = [] → r.path ≠ [] →
        r.path.head? ≠ some '/' →
        resolveURL b1 ref = resolveURL b2 ref)
    ∧ resolveURL "https://example.com" "/script" = Except.ok "https://example.com/script"
    ∧ resolveURL "https://example.com/path/" "script"
        = Except.ok "https://example.com/script"
    ∧ resolveURL "https://example.com/path/" "../script"
        = Except.ok "https://example.com/script"
    ∧ resolveURL "https://example.com" "//example.com/script"
        = Except.ok "https://example.com/script" := by
  refine ⟨?_, by rfl, by rfl, by rfl, by rfl⟩
  intro b1 b2 ref u1 u2 r h1 h2 hs hh hr hrs hrp hrh
  rw [resolveURL_eq_of_parse b1 ref u1 r h1 hr,
      resolveURL_eq_of_parse b2 ref u2 r h2 hr,
      if_pos (⟨hrs, hrp, hrh⟩ : r.scheme = [] ∧ r.path ≠ [] ∧ r.path.head? ≠ some '/')]
  suffices hres : resolveReference u1 { r with path := '/' :: r.path }
      = resolveReference u2 { r with path := '/' :: r.path } by rw [hres]
  obtain ⟨rs, ro, rh, rp, rfq, rrq, rf, roh⟩ := r
  simp only at hrs
  subst hrs
  by_cases hhost : rh = []
  · subst hhost
    by_cases hopq : ro = []
    · subst hopq
      show resolveReference u1 ⟨[], [], [], '/' :: rp, rfq, rrq, rf, roh⟩
          = resolveReference u2 ⟨[], [], [], '/' :: rp, rfq, rrq, rf, roh⟩
      unfold resolveReference
      simp only [resolvePathGo_of_slash]
      simp [hs, hh]
    · show resolveReference u1 ⟨[], ro, [], '/' :: rp, rfq, rrq, rf, roh⟩
          = resolveReference u2 ⟨[], ro, [], '/' :: rp, rfq, rrq, rf, roh⟩
      unfold resolveReference
      simp [hs, hopq]
  · show resolveReference u1 ⟨[], ro, rh, '/' :: rp, rfq, rrq, rf, roh⟩
        = resolveReference u2 ⟨[], ro, rh, '/' :: rp, rfq, rrq, rf, roh⟩
    unfold resolveReference
    simp [hs, hhost]

/-- Witness for the C3 theorem: two bases differing only in path
resolve a bare relative reference identically. -/
theorem resolveURL_root_relative_witness :
    resolveURL "https://example.com/path/" "script"
      = resolveURL "https://example.com/zzz" "script" :=
  resolveURL_root_relative.1 "https://example.com/path/" "https://example.com/zzz" "script"
    ⟨"https".data, [], "example.com".data, "/path/".data, false, [], [], false⟩
    ⟨"https".data, [], "example.com".data, "/zzz".data, false, [], [], false⟩
    ⟨[], [], [], "script".data, false, [], [], false⟩
    (by decide) (by decide) (by decide) (by decide) (by decide) (by decide)
    (by decide) (by decide)

/-! ## Lemmas about the blacklist in the scrape pipeline -/

theorem getTLD_blacklisted (env : Env) (target : String) (u : GoURL)
    (hparse : parseURL target = some u)
    (hbl : containsStr blacklistHostnames (hostnameOf u) = true) :
    getTLD env target
      = Except.error ("target hostname " ++ hostnameOf u ++ " is blacklisted") := by
  unfold getTLD
  rw [hparse]
  simp only [hbl, if_true]

theorem scrapeTarget_blacklisted (env : Env) (st : CoreState) (target : String) (u : GoURL)
    (hparse : parseURL target = some u)
    (hbl : containsStr blacklistHostnames (hostnameOf u) = true)
    (hmiss : st.targetCache.Get target = none) :
    ∃ e, scrapeTarget env st target = (Except.error e, st) := by
  unfold scrapeTarget
  rw [hmiss]
  cases hf : fetchHTMLContent (env.htmlResp target) with
  | error e => exact ⟨_, rfl⟩
  | ok content =>
    simp only [processScriptsGo, getTLD_blacklisted env target u hparse hbl]
    exact ⟨_, rfl⟩

/-- **C7.** A blacklisted target hostname fails that whole target: the
target contributes nothing and the batch behaves exactly as if it were
absent, while the batch call itself always returns success with the
remaining targets' results.  A discovered script that resolves to a
blacklisted hostname is silently skipped: `processScript` returns no
error and no findings, touches no state, and the rest of the target's
scripts proceed unaffected. -/
theorem blacklist_semantics :
    (∀ (env : Env) (st : CoreState) (target : String) (u : GoURL) (rest : List String),
        parseURL target = some u →
        containsStr blacklistHostnames (hostnameOf u) = true →
        st.targetCache.Get target = none →
        Scrape env st (target :: rest) = Scrape env st rest)
    ∧ (∀ (env : Env) (st : CoreState) (ts : List String),
        ∃ res st', Scrape env st ts = (Except.ok res, st'))
    ∧ (∀ (env : Env) (st : CoreState) (target script targetTLD fullURL : String)
        (su : GoURL) (ss : List String),
        resolveURL target script = Except.ok fullURL →
        parseURL fullURL = some su →
        containsStr blacklistHostnames (hostnameOf su) = true →
        processScript env st target script targetTLD = (Except.ok [], st)
        ∧ processScriptList env st target targetTLD (script :: ss)
            = processScriptList env st target targetTLD ss) := by
  have hps : ∀ (env : Env) (st : CoreState) (target script targetTLD fullURL : String)
      (su : GoURL),
      resolveURL target script = Except.ok fullURL →
      parseURL fullURL = some su →
      containsStr blacklistHostnames (hostnameOf su) = true →
      processScript env st target script targetTLD = (Except.ok [], st) := by
    intro env st target script targetTLD fullURL su hres hparse hbl
    simp only [processScript, hres, hparse, hbl, if_true]
  refine ⟨?_, ?_, ?_⟩
  · intro env st target u rest hparse hbl hmiss
    obtain ⟨e, he⟩ := scrapeTarget_blacklisted env st target u hparse hbl hmiss
    unfold Scrape
    simp only [scrapeAll, he]
  · intro env st ts
    exact ⟨_, _, rfl⟩
  · intro env st target script targetTLD fullURL su ss hres hparse hbl
    refine ⟨hps env st target script targetTLD fullURL su hres hparse hbl, ?_⟩
    show (match processScript env st target script targetTLD with
      | (Except.error _, st1) => processScriptList env st1 target targetTLD ss
      | (Except.ok infos, st1) =>
        let r := processScriptList env st1 target targetTLD ss
        (infos ++ r.1, r.2))
      = processScriptList env st target targetTLD ss
    rw [hps env st target script targetTLD fullURL su hres hparse hbl]
    simp

/-- A concrete offline environment, used to instantiate the blacklist
theorem. -/
def envW : Env :=
  { htmlResp := fun _ => Except.error "offline",
    scriptResp := fun _ => Except.error "offline",
    extractScripts := fun _ => [],
    psDomain := fun _ => Except.error "no public suffix data",
    evictRnd := 0 }

/-- Witness for the C7 theorem: a blacklisted target drops out of a
concrete batch, and a blacklisted script is silently skipped. -/
theorem blacklist_semantics_witness :
    Scrape envW initialCoreState ["https://google.com/a"] = Scrape envW initialCoreState []
    ∧ processScript envW initialCoreState "https://a.com" "https://google.com/s.js" "a.com"
        = (Except.ok [], initialCoreState) :=
  ⟨blacklist_semantics.1 envW initialCoreState "https://google.com/a"
      ⟨"https".data, [], "google.com".data, "/a".data, false, [], [], false⟩ []
      (by decide) (by decide) (by decide),
   (blacklist_semantics.2.2 envW initialCoreState "https://a.com" "https://google.com/s.js"
      "a.com" "https://google.com/s.js"
      ⟨"https".data, [], "google.com".data, "/s.js".data, false, [], [], false⟩ []
      (by rfl) (by decide) (by decide)).1⟩

end Scraper
